import Mathlib

/-!
Verification of dpmutil's I2C HAL fragmentation engine, SYZYGY CRC-16,
Zmod identification and DAC calibration-coefficient computation.

The C code is shallowly embedded: machine integers (BYTE, WORD, INT32) are
modelled as `Nat`/`Int`/`Rat` with explicit `% 2^w` at the points where the
C code truncates; the I2C bus is modelled as an oracle giving the outcome of
each primitive transaction; output-by-pointer is modelled by returning the
value that would be stored, together with an `Option` wrapper for a possibly
NULL output-count pointer.
-/

set_option maxHeartbeats 4000000
set_option maxRecDepth 8000

namespace Dpmutil

/-! ### Bus oracle

A run of the fragmentation engine is determined by the outcome of each
primitive bus transaction.  For reads, transaction `i` (a 2-byte address
write followed by one bounded data read of a requested size) either fails in
the address phase, or the data phase returns some byte count `cb` (the C code
treats `cb <= 0` as failure, so `cb = 0` models failure of the data phase).
The oracle receives the requested transfer size, since the underlying
`read` call is bounded by it.  For writes, the staged buffer is sent with a
single `write` call which either transfers all `cbTrans` bytes or fails
(any short transfer is treated as failure by the C code). -/

inductive ReadPrim where
  | addrFail : ReadPrim
  | data : Nat → ReadPrim
deriving DecidableEq

/-- Result of a fragmented read: `ok` is the BOOL return value, `cbDone` the
byte count stored through `pcbRead` (on both the success and error paths),
`txns` the data-phase byte counts of the successful primitive transactions in
order, and `issued` the number of primitive transactions attempted. -/
structure ReadResult where
  ok : Bool
  cbDone : Nat
  txns : List Nat
  issued : Nat
deriving DecidableEq

/-- Loop of `I2CHALRead` (src I2CHAL.c).  State: transaction index `i`,
current 16-bit memory address `addr`, received count `cbRecv` (a C BYTE,
hence the `% 256`).  Each iteration sends the 2-byte big-endian address,
computes `cbTrans = min (cbRead - cbRecv) 32` (the fixed 32-byte read cap),
reads, and adds the bytes actually returned.  `fuel` bounds the recursion;
every theorem below supplies enough fuel for the runs it talks about. -/
def i2chalReadLoop (oracle : Nat → Nat → ReadPrim) (cbRead : Nat) :
    Nat → Nat → Nat → Nat → ReadResult
  | 0, _, _, cbRecv => ⟨false, cbRecv, [], 0⟩
  | fuel+1, i, addr, cbRecv =>
    if cbRecv < cbRead then
      let cbTrans := min (cbRead - cbRecv) 32
      match oracle i cbTrans with
      | .addrFail => ⟨false, cbRecv, [], 1⟩
      | .data cb =>
        if cb = 0 then
          ⟨false, cbRecv, [], 1⟩
        else
          let r := i2chalReadLoop oracle cbRead fuel (i+1)
            ((addr + cb) % 65536) ((cbRecv + cb) % 256)
          ⟨r.ok, r.cbDone, cb :: r.txns, r.issued + 1⟩
    else ⟨true, cbRecv, [], 0⟩

/-- `I2CHALRead fdI2cDev slaveAddr addrRead pbRead cbRead pcbRead uWait`:
`cbRead` is a C BYTE (callers pass values `< 256`). -/
def i2chalRead (oracle : Nat → Nat → ReadPrim) (addrRead cbRead : Nat) : ReadResult :=
  i2chalReadLoop oracle cbRead (cbRead + 1) 0 addrRead 0

/-- Result of a fragmented write: `ok` is the BOOL return value, `cbDone` the
count stored through `pcbWritten`, `txns` the staged transaction sizes
(`cbTrans`, address bytes included) of the successful transactions, and
`attempted` the staged sizes of every transaction attempted (successful or
not) — staging into the 32-byte local buffer happens before the bus write. -/
structure WriteResult where
  ok : Bool
  cbDone : Nat
  txns : List Nat
  attempted : List Nat
deriving DecidableEq

/-- The staged size of the next write transaction: the C code computes
`cbTrans = 2 + (cbWrite - cbSent)` into a BYTE (truncating mod 256) and then
clamps it with `if (cbDevRxMax < cbTrans) cbTrans = cbDevRxMax`, the
assignment again truncating the INT32 cap to a BYTE. -/
def writeTransSize (cbWrite cbDevRxMax cbSent : Nat) : Nat :=
  if cbDevRxMax < (2 + (cbWrite - cbSent)) % 256 then cbDevRxMax % 256
  else (2 + (cbWrite - cbSent)) % 256

/-- Record a transaction of staged size `t` in front of the rest of a run. -/
def consTxn (t : Nat) (r : WriteResult) : WriteResult :=
  ⟨r.ok, r.cbDone, t :: r.txns, t :: r.attempted⟩

/-- Loop of `I2CHALWrite` (src I2CHAL.c).  The update `cbSent += cbTrans - 2`
is int arithmetic assigned back to a BYTE: `(cbSent + cbTrans - 2) mod 256`,
written with `+ 254` to stay in `Nat`; likewise `addrWrite += cbTrans - 2` on
a 16-bit WORD.  `cbDevRxMax` is nonnegative at every call site, so it is
modelled as a `Nat`. -/
def i2chalWriteLoop (oracle : Nat → Bool) (cbWrite cbDevRxMax : Nat) :
    Nat → Nat → Nat → Nat → WriteResult
  | 0, _, _, cbSent => ⟨false, cbSent, [], []⟩
  | fuel+1, i, addr, cbSent =>
    if cbSent < cbWrite then
      if oracle i then
        consTxn (writeTransSize cbWrite cbDevRxMax cbSent)
          (i2chalWriteLoop oracle cbWrite cbDevRxMax fuel (i+1)
            ((addr + writeTransSize cbWrite cbDevRxMax cbSent + 65534) % 65536)
            ((cbSent + writeTransSize cbWrite cbDevRxMax cbSent + 254) % 256))
      else ⟨false, cbSent, [], [writeTransSize cbWrite cbDevRxMax cbSent]⟩
    else ⟨true, cbSent, [], []⟩

/-- `I2CHALWrite fdI2cDev slaveAddr addrWrite pbWrite cbWrite cbDevRxMax
pcbWritten uWait`: `cbWrite` is a C BYTE. -/
def i2chalWrite (oracle : Nat → Bool) (addrWrite cbWrite cbDevRxMax : Nat) : WriteResult :=
  i2chalWriteLoop oracle cbWrite cbDevRxMax (cbWrite + 1) 0 addrWrite 0

/-- A NULL output-count pointer is modelled by `pcbGiven = false`: the count
is stored only through a non-NULL pointer. -/
def reportedCount (pcbGiven : Bool) (cb : Nat) : Option Nat :=
  if pcbGiven then some cb else none

/-! ### Call-site wrappers -/

/-- `SyzygyI2cRead` (src syzygy.c): forwards its 16-bit `cbRead` to the
BYTE parameter of `I2CHALRead`, truncating mod 256. -/
def syzygyI2cRead (oracle : Nat → Nat → ReadPrim) (addrRead cbRead : Nat) : ReadResult :=
  i2chalRead oracle addrRead (cbRead % 256)

/-- `SyzygyI2cWrite` (src syzygy.c): forwards its 16-bit `cbWrite` mod 256
and passes `cbDevRxMax = cbPmcuRxMax = 34` (syzygy.c's local constant). -/
def syzygyI2cWrite (oracle : Nat → Bool) (addrWrite cbWrite : Nat) : WriteResult :=
  i2chalWrite oracle addrWrite (cbWrite % 256) 34

/-- `PmcuI2cWrite` (src PlatformMCU.c): passes
`cbDevRxMax = cbPmcuRxMax = 6` (PlatformMCU.c's local constant). -/
def pmcuI2cWrite (oracle : Nat → Bool) (addrWrite cbWrite : Nat) : WriteResult :=
  i2chalWrite oracle addrWrite cbWrite 6

/-- The all-success read oracle: every data phase returns exactly the
requested number of bytes. -/
def readFullOracle : Nat → Nat → ReadPrim := fun _ cbTrans => .data cbTrans

/-- The all-success write oracle. -/
def writeFullOracle : Nat → Bool := fun _ => true

/-- A read oracle is well formed when no data phase ever claims to have
returned more bytes than were requested (the underlying `read` cannot). -/
def ReadOracleWF (oracle : Nat → Nat → ReadPrim) : Prop :=
  ∀ i t cb, oracle i t = .data cb → cb ≤ t

/-! ### Transaction-size chains -/

/-- The sequence of data sizes obtained by repeatedly taking
`min remaining cap` until nothing remains. -/
def chunkSizes (cap : Nat) (rem : Nat) : List Nat :=
  if h : rem = 0 ∨ cap = 0 then [] else
    min rem cap :: chunkSizes cap (rem - min rem cap)
termination_by rem
decreasing_by
  push_neg at h
  have h1 : 1 ≤ min rem cap := by omega
  omega

/-- Ceiling division. -/
def ceilDiv (a b : Nat) : Nat := (a + b - 1) / b

theorem chunkSizes_sum (cap : Nat) (rem : Nat) (hcap : 1 ≤ cap) :
    (chunkSizes cap rem).sum = rem := by
  induction rem using Nat.strong_induction_on with
  | _ rem ih =>
    rw [chunkSizes]
    by_cases h0 : rem = 0
    · rw [dif_pos (Or.inl h0)]
      simp [h0]
    · rw [dif_neg (by omega)]
      have h1 : 1 ≤ min rem cap := by omega
      rw [List.sum_cons, ih (rem - min rem cap) (by omega)]
      omega

theorem chunkSizes_length (cap : Nat) (rem : Nat) (hcap : 1 ≤ cap) :
    (chunkSizes cap rem).length = ceilDiv rem cap := by
  induction rem using Nat.strong_induction_on with
  | _ rem ih =>
    rw [chunkSizes]
    by_cases h0 : rem = 0
    · rw [dif_pos (Or.inl h0)]
      subst h0
      simp [ceilDiv, Nat.div_eq_of_lt (show cap - 1 < cap by omega)]
    · rw [dif_neg (by omega)]
      have h1 : 1 ≤ min rem cap := by omega
      rw [List.length_cons, ih (rem - min rem cap) (by omega)]
      have hrc : rem + cap - 1 = (rem - 1) + cap := by omega
      by_cases hle : rem ≤ cap
      · have hm : min rem cap = rem := by omega
        rw [hm, Nat.sub_self]
        show ceilDiv 0 cap + 1 = ceilDiv rem cap
        rw [ceilDiv, ceilDiv, hrc, Nat.add_div_right _ (by omega),
          Nat.div_eq_of_lt (by omega), Nat.div_eq_of_lt (by omega)]
      · have hm : min rem cap = cap := by omega
        rw [hm, ceilDiv, ceilDiv, hrc, Nat.add_div_right _ (by omega)]
        congr 1
        congr 1
        omega

theorem chunkSizes_mem_le (cap rem : Nat) :
    ∀ t ∈ chunkSizes cap rem, t ≤ cap ∧ 1 ≤ t ∧ t ≤ rem := by
  induction rem using Nat.strong_induction_on with
  | _ rem ih =>
    rw [chunkSizes]
    by_cases h : rem = 0 ∨ cap = 0
    · simp [dif_pos h]
    · rw [dif_neg h]
      push_neg at h
      intro t ht
      rcases List.mem_cons.mp ht with rfl | ht
      · omega
      · have h1 : 1 ≤ min rem cap := by omega
        have := ih (rem - min rem cap) (by omega) t ht
        omega

/-! ### Read-loop lemmas -/

theorem i2chalReadLoop_run (oracle : Nat → Nat → ReadPrim) (cbRead : Nat)
    (hwf : ReadOracleWF oracle) (hcb : cbRead < 256) :
    ∀ fuel cbRecv i addr r, cbRecv ≤ cbRead → cbRead - cbRecv < fuel →
      r = i2chalReadLoop oracle cbRead fuel i addr cbRecv →
      r.cbDone = cbRecv + r.txns.sum
        ∧ (r.ok = true → cbRecv + r.txns.sum = cbRead ∧ r.issued = r.txns.length)
        ∧ (r.ok = false → r.issued = r.txns.length + 1) := by
  intro fuel
  induction fuel with
  | zero =>
    intro cbRecv i addr r h1 h2 hr
    omega
  | succ fuel ih =>
    intro cbRecv i addr r h1 h2 hr
    rw [i2chalReadLoop] at hr
    by_cases hlt : cbRecv < cbRead
    · rw [if_pos hlt] at hr
      rcases ho : oracle i (min (cbRead - cbRecv) 32) with _ | cb
      · simp only [ho] at hr
        subst hr
        simp
      · simp only [ho] at hr
        by_cases hcb0 : cb = 0
        · rw [if_pos hcb0] at hr
          subst hr
          simp
        · rw [if_neg hcb0] at hr
          have hle : cb ≤ min (cbRead - cbRecv) 32 := hwf i _ cb ho
          have hmod : (cbRecv + cb) % 256 = cbRecv + cb := Nat.mod_eq_of_lt (by omega)
          rw [hmod] at hr
          obtain ⟨ih1, ih2, ih3⟩ := ih (cbRecv + cb) (i+1) ((addr + cb) % 65536)
            (i2chalReadLoop oracle cbRead fuel (i+1) ((addr + cb) % 65536) (cbRecv + cb))
            (by omega) (by omega) rfl
          subst hr
          refine ⟨by simp; omega, ?_, ?_⟩
          · intro hok
            simp only at hok
            obtain ⟨e1, e2⟩ := ih2 hok
            constructor
            · simp
              omega
            · simp [e2]
          · intro hok
            simp only at hok
            have := ih3 hok
            simp [this]
    · rw [if_neg hlt] at hr
      subst hr
      refine ⟨by simp, fun _ => ⟨by simp; omega, by simp⟩, by simp⟩

theorem i2chalReadLoop_full (cbRead : Nat) (hcb : cbRead < 256) :
    ∀ fuel cbRecv i addr, cbRecv ≤ cbRead → cbRead - cbRecv < fuel →
      i2chalReadLoop readFullOracle cbRead fuel i addr cbRecv
        = ⟨true, cbRead, chunkSizes 32 (cbRead - cbRecv),
            (chunkSizes 32 (cbRead - cbRecv)).length⟩ := by
  intro fuel
  induction fuel with
  | zero =>
    intro cbRecv i addr h1 h2
    omega
  | succ fuel ih =>
    intro cbRecv i addr h1 h2
    rw [i2chalReadLoop]
    by_cases hlt : cbRecv < cbRead
    · rw [if_pos hlt]
      have hm0 : ¬ (min (cbRead - cbRecv) 32 = 0) := by omega
      simp only [readFullOracle]
      rw [if_neg hm0]
      have hmod : (cbRecv + min (cbRead - cbRecv) 32) % 256
          = cbRecv + min (cbRead - cbRecv) 32 := Nat.mod_eq_of_lt (by omega)
      rw [hmod, ih (cbRecv + min (cbRead - cbRecv) 32) (i+1) _ (by omega) (by omega)]
      have hchunk : chunkSizes 32 (cbRead - cbRecv)
          = min (cbRead - cbRecv) 32
            :: chunkSizes 32 (cbRead - (cbRecv + min (cbRead - cbRecv) 32)) := by
        rw [chunkSizes, dif_neg (by omega)]
        congr 2
        omega
      rw [hchunk]
      simp
    · rw [if_neg hlt]
      have h0 : cbRead - cbRecv = 0 := by omega
      rw [h0, chunkSizes, dif_pos (Or.inl rfl)]
      have : cbRecv = cbRead := by omega
      simp [this]

/-! ### Write-loop lemmas -/

theorem i2chalWriteLoop_done (oracle : Nat → Bool) (cbWrite cap fuel i addr cbSent : Nat)
    (h : cbWrite ≤ cbSent) (hf : 1 ≤ fuel) :
    i2chalWriteLoop oracle cbWrite cap fuel i addr cbSent = ⟨true, cbSent, [], []⟩ := by
  cases fuel with
  | zero => omega
  | succ fuel => rw [i2chalWriteLoop, if_neg (by omega)]

theorem consTxn_ok (t : Nat) (r : WriteResult) : (consTxn t r).ok = r.ok := rfl

theorem consTxn_cbDone (t : Nat) (r : WriteResult) : (consTxn t r).cbDone = r.cbDone := rfl

theorem consTxn_txns (t : Nat) (r : WriteResult) : (consTxn t r).txns = t :: r.txns := rfl

theorem consTxn_attempted (t : Nat) (r : WriteResult) :
    (consTxn t r).attempted = t :: r.attempted := rfl

theorem i2chalWriteLoop_run (oracle : Nat → Bool) (cbWrite cap : Nat)
    (hcap3 : 3 ≤ cap) (hcap255 : cap ≤ 255) (hcb : cbWrite < 256) :
    ∀ fuel cbSent i addr r, cbSent ≤ cbWrite →
      (cbWrite - cbSent ≤ 253 ∨ cbSent = 0) → cbWrite - cbSent < fuel →
      r = i2chalWriteLoop oracle cbWrite cap fuel i addr cbSent →
      (r.ok = false →
          r.cbDone = cbSent + (r.txns.map (fun t => t - 2)).sum
            ∧ r.attempted.length = r.txns.length + 1)
        ∧ (r.ok = true → r.attempted = r.txns ∧ r.cbDone = cbWrite) := by
  intro fuel
  induction fuel with
  | zero =>
    intro cbSent i addr r h1 hinv h2 hr
    omega
  | succ fuel ih =>
    intro cbSent i addr r h1 hinv h2 hr
    rw [i2chalWriteLoop] at hr
    by_cases hlt : cbSent < cbWrite
    · rw [if_pos hlt] at hr
      by_cases hwrap : cbWrite - cbSent ≤ 253
      · -- normal iteration: no BYTE overflow in 2 + remaining
        have e0 : (2 + (cbWrite - cbSent)) % 256 = 2 + (cbWrite - cbSent) :=
          Nat.mod_eq_of_lt (by omega)
        have e1 : cap % 256 = cap := Nat.mod_eq_of_lt (by omega)
        have htv : writeTransSize cbWrite cap cbSent
            = if cap < 2 + (cbWrite - cbSent) then cap else 2 + (cbWrite - cbSent) := by
          rw [writeTransSize, e0, e1]
        have hts : 3 ≤ writeTransSize cbWrite cap cbSent
            ∧ writeTransSize cbWrite cap cbSent ≤ 2 + (cbWrite - cbSent) := by
          rw [htv]
          split <;> omega
        set t := writeTransSize cbWrite cap cbSent with ht
        have e2 : (cbSent + t + 254) % 256 = cbSent + (t - 2) := by
          have e3 : cbSent + t + 254 = (cbSent + (t - 2)) + 256 := by omega
          rw [e3, Nat.add_mod_right, Nat.mod_eq_of_lt (by omega)]
        rw [e2] at hr
        cases horc : oracle i with
        | false =>
          rw [if_neg (by simp [horc])] at hr
          subst hr
          refine ⟨fun _ => ⟨by simp, by simp⟩, by simp⟩
        | true =>
          rw [if_pos horc] at hr
          obtain ⟨ihf, iht⟩ := ih (cbSent + (t - 2)) (i+1) ((addr + t + 65534) % 65536)
            (i2chalWriteLoop oracle cbWrite cap fuel (i+1) ((addr + t + 65534) % 65536)
              (cbSent + (t - 2)))
            (by omega) (by omega) (by omega) rfl
          subst hr
          constructor
          · intro hok
            rw [consTxn_ok] at hok
            obtain ⟨f1, f2⟩ := ihf hok
            constructor
            · rw [consTxn_cbDone, consTxn_txns, f1]
              simp
              omega
            · rw [consTxn_attempted, consTxn_txns]
              simp [f2]
          · intro hok
            rw [consTxn_ok] at hok
            obtain ⟨t1, t2⟩ := iht hok
            rw [consTxn_attempted, consTxn_txns, consTxn_cbDone]
            exact ⟨by rw [t1], t2⟩
      · -- BYTE overflow: remaining ≥ 254, only possible with cbSent = 0
        have hs0 : cbSent = 0 := by omega
        subst hs0
        have e0 : (2 + (cbWrite - 0)) % 256 = cbWrite - 254 := by
          have e3 : 2 + (cbWrite - 0) = (cbWrite - 254) + 256 := by omega
          rw [e3, Nat.add_mod_right, Nat.mod_eq_of_lt (by omega)]
        have htv : writeTransSize cbWrite cap 0 = cbWrite - 254 := by
          rw [writeTransSize, e0, if_neg (by omega)]
        rw [htv] at hr
        have e2 : (0 + (cbWrite - 254) + 254) % 256 = cbWrite := by
          rw [Nat.mod_eq_of_lt (by omega)]
          omega
        cases horc : oracle i with
        | false =>
          rw [if_neg (by simp [horc])] at hr
          subst hr
          refine ⟨fun _ => ⟨by simp, by simp⟩, by simp⟩
        | true =>
          rw [if_pos horc, e2] at hr
          rw [i2chalWriteLoop_done oracle cbWrite cap fuel (i+1) _ cbWrite (le_refl _)
            (by omega)] at hr
          subst hr
          refine ⟨fun hok => by simp [consTxn_ok] at hok, fun _ => ?_⟩
          rw [consTxn_attempted, consTxn_txns, consTxn_cbDone]
          exact ⟨rfl, rfl⟩
    · rw [if_neg hlt] at hr
      subst hr
      refine ⟨fun hok => by simp at hok, fun _ => ⟨by simp, by simp; omega⟩⟩

theorem i2chalWriteLoop_full (cbWrite cap : Nat)
    (hcap3 : 3 ≤ cap) (hcap255 : cap ≤ 255) (hcb : cbWrite < 256) :
    ∀ fuel cbSent i addr, cbSent ≤ cbWrite → cbWrite - cbSent ≤ 253 →
      cbWrite - cbSent < fuel →
      i2chalWriteLoop writeFullOracle cbWrite cap fuel i addr cbSent
        = ⟨true, cbWrite,
            (chunkSizes (cap - 2) (cbWrite - cbSent)).map (fun c => 2 + c),
            (chunkSizes (cap - 2) (cbWrite - cbSent)).map (fun c => 2 + c)⟩ := by
  intro fuel
  induction fuel with
  | zero =>
    intro cbSent i addr h1 h2 h3
    omega
  | succ fuel ih =>
    intro cbSent i addr h1 h2 h3
    rw [i2chalWriteLoop]
    by_cases hlt : cbSent < cbWrite
    · rw [if_pos hlt, if_pos (show writeFullOracle i = true from rfl)]
      have e0 : (2 + (cbWrite - cbSent)) % 256 = 2 + (cbWrite - cbSent) :=
        Nat.mod_eq_of_lt (by omega)
      have e1 : cap % 256 = cap := Nat.mod_eq_of_lt (by omega)
      have htv : writeTransSize cbWrite cap cbSent
          = 2 + min (cbWrite - cbSent) (cap - 2) := by
        rw [writeTransSize, e0, e1]
        split <;> omega
      have hts : 3 ≤ writeTransSize cbWrite cap cbSent
          ∧ writeTransSize cbWrite cap cbSent ≤ 2 + (cbWrite - cbSent) := by
        rw [htv]
        omega
      set t := writeTransSize cbWrite cap cbSent with ht
      have e2 : (cbSent + t + 254) % 256 = cbSent + (t - 2) := by
        have e3 : cbSent + t + 254 = (cbSent + (t - 2)) + 256 := by omega
        rw [e3, Nat.add_mod_right, Nat.mod_eq_of_lt (by omega)]
      rw [e2, ih (cbSent + (t - 2)) (i+1) _ (by omega) (by omega) (by omega)]
      have hchunk : chunkSizes (cap - 2) (cbWrite - cbSent)
          = min (cbWrite - cbSent) (cap - 2)
            :: chunkSizes (cap - 2) (cbWrite - (cbSent + (t - 2))) := by
        rw [chunkSizes, dif_neg (by omega)]
        congr 2
        omega
      rw [hchunk, consTxn]
      simp only [List.map_cons]
      rw [htv]
    · rw [if_neg hlt]
      have h0 : cbWrite - cbSent = 0 := by omega
      rw [h0, chunkSizes, dif_pos (Or.inl rfl)]
      have he : cbSent = cbWrite := by omega
      simp [he]

theorem i2chalWriteLoop_attempted_le (oracle : Nat → Bool) (cbWrite cap : Nat)
    (hcap : cap ≤ 255) :
    ∀ fuel cbSent i addr,
      ∀ t ∈ (i2chalWriteLoop oracle cbWrite cap fuel i addr cbSent).attempted,
        t ≤ cap := by
  intro fuel
  induction fuel with
  | zero =>
    intro cbSent i addr
    simp [i2chalWriteLoop]
  | succ fuel ih =>
    intro cbSent i addr
    rw [i2chalWriteLoop]
    have hb : writeTransSize cbWrite cap cbSent ≤ cap := by
      rw [writeTransSize]
      split <;> omega
    by_cases hlt : cbSent < cbWrite
    · rw [if_pos hlt]
      cases horc : oracle i with
      | false =>
        rw [if_neg (by simp)]
        intro t htm
        simp at htm
        omega
      | true =>
        rw [if_pos rfl]
        intro t htm
        rw [consTxn_attempted] at htm
        rcases List.mem_cons.mp htm with rfl | htm
        · exact hb
        · exact ih _ (i+1) _ t htm
    · rw [if_neg hlt]
      simp

theorem i2chalWriteLoop_txns_subset (oracle : Nat → Bool) (cbWrite cap : Nat) :
    ∀ fuel cbSent i addr,
      ∀ t ∈ (i2chalWriteLoop oracle cbWrite cap fuel i addr cbSent).txns,
        t ∈ (i2chalWriteLoop oracle cbWrite cap fuel i addr cbSent).attempted := by
  intro fuel
  induction fuel with
  | zero =>
    intro cbSent i addr
    simp [i2chalWriteLoop]
  | succ fuel ih =>
    intro cbSent i addr
    rw [i2chalWriteLoop]
    by_cases hlt : cbSent < cbWrite
    · rw [if_pos hlt]
      cases horc : oracle i with
      | false =>
        rw [if_neg (by simp)]
        simp
      | true =>
        rw [if_pos rfl]
        intro t htm
        rw [consTxn_txns] at htm
        rw [consTxn_attempted]
        rcases List.mem_cons.mp htm with rfl | htm
        · exact List.mem_cons_self _ _
        · exact List.mem_cons_of_mem _ (ih _ (i+1) _ t htm)
    · rw [if_neg hlt]
      simp

theorem i2chalWriteLoop_attempted_ge (oracle : Nat → Bool) (cbWrite cap : Nat)
    (hcap3 : 3 ≤ cap) (hcap255 : cap ≤ 255) (hcb : cbWrite < 256) :
    ∀ fuel cbSent i addr, cbSent ≤ cbWrite → cbWrite - cbSent ≤ 253 →
      ∀ t ∈ (i2chalWriteLoop oracle cbWrite cap fuel i addr cbSent).attempted,
        3 ≤ t := by
  intro fuel
  induction fuel with
  | zero =>
    intro cbSent i addr h1 h2
    simp [i2chalWriteLoop]
  | succ fuel ih =>
    intro cbSent i addr h1 h2
    rw [i2chalWriteLoop]
    by_cases hlt : cbSent < cbWrite
    · rw [if_pos hlt]
      have e0 : (2 + (cbWrite - cbSent)) % 256 = 2 + (cbWrite - cbSent) :=
        Nat.mod_eq_of_lt (by omega)
      have e1 : cap % 256 = cap := Nat.mod_eq_of_lt (by omega)
      have hb : 3 ≤ writeTransSize cbWrite cap cbSent
          ∧ writeTransSize cbWrite cap cbSent ≤ 2 + (cbWrite - cbSent) := by
        rw [writeTransSize, e0, e1]
        split <;> omega
      set t0 := writeTransSize cbWrite cap cbSent with ht0
      have e2 : (cbSent + t0 + 254) % 256 = cbSent + (t0 - 2) := by
        have e3 : cbSent + t0 + 254 = (cbSent + (t0 - 2)) + 256 := by omega
        rw [e3, Nat.add_mod_right, Nat.mod_eq_of_lt (by omega)]
      cases horc : oracle i with
      | false =>
        rw [if_neg (by simp)]
        intro t htm
        simp at htm
        omega
      | true =>
        rw [if_pos rfl, e2]
        intro t htm
        rw [consTxn_attempted] at htm
        rcases List.mem_cons.mp htm with rfl | htm
        · exact hb.1
        · exact ih (cbSent + (t0 - 2)) (i+1) _ (by omega) (by omega) t htm
    · rw [if_neg hlt]
      simp

/-! ### Top-level runs -/

theorem i2chalRead_full (addr L : Nat) (hL : L < 256) :
    i2chalRead readFullOracle addr L
      = ⟨true, L, chunkSizes 32 L, (chunkSizes 32 L).length⟩ := by
  have h := i2chalReadLoop_full L hL (L+1) 0 0 addr (by omega) (by omega)
  rw [i2chalRead, h]
  simp

theorem i2chalWrite_full (addr L cap : Nat) (hL : L ≤ 253) (h3 : 3 ≤ cap)
    (h255 : cap ≤ 255) :
    i2chalWrite writeFullOracle addr L cap
      = ⟨true, L, (chunkSizes (cap - 2) L).map (fun c => 2 + c),
          (chunkSizes (cap - 2) L).map (fun c => 2 + c)⟩ := by
  have h := i2chalWriteLoop_full L cap h3 h255 (by omega) (L+1) 0 0 addr
    (by omega) (by omega) (by omega)
  rw [i2chalWrite, h]
  simp

theorem map_sub_two_map_add_two (l : List Nat) :
    (l.map (fun c => 2 + c)).map (fun t => t - 2) = l := by
  induction l with
  | nil => rfl
  | cons a l ih => simp [ih]

/-- A read oracle whose first transaction already fails in the address phase. -/
def readAbortOracle : Nat → Nat → ReadPrim := fun _ _ => .addrFail

/-- A write oracle whose first transaction fails. -/
def writeAbortOracle : Nat → Bool := fun _ => false

/-- The indices of the 32-byte staging buffer `rgbSnd` written while staging a
transaction of size `t`: `rgbSnd[0]` and `rgbSnd[1]` take the address bytes,
then `rgbSnd[ib]` for `ib = 2 .. t-1` takes the payload. -/
def stagedIndices (t : Nat) : List Nat := [0, 1] ++ List.range' 2 (t - 2)

/-! ### Claims C1, C2, C3, C8, C9 -/

/-- Claim C1, amended.  On full success the fragmentation engine issues
exactly `ceil(L/C)` primitive transactions (0 when `L = 0`), the transferred
bytes sum to `L`, and the count is stored through the output pointer exactly
when it is non-NULL — for reads with the fixed cap 32 at every BYTE length
`L < 256`, and for writes at every length `L ≤ 253` with usable payload cap
`C = cbDevRxMax - 2` (for `L = 254, 255` the BYTE overflow in
`cbTrans = 2 + (cbWrite - cbSent)` breaks the claim, see the
counterexample). -/
theorem claim_C1_amended :
    (∀ addr L, L < 256 →
        i2chalRead readFullOracle addr L
          = ⟨true, L, chunkSizes 32 L, (chunkSizes 32 L).length⟩
        ∧ (i2chalRead readFullOracle addr L).issued = ceilDiv L 32
        ∧ (i2chalRead readFullOracle addr L).txns.sum = L
        ∧ reportedCount true (i2chalRead readFullOracle addr L).cbDone = some L
        ∧ reportedCount false (i2chalRead readFullOracle addr L).cbDone = none)
    ∧ (∀ addr L cap, L ≤ 253 → 3 ≤ cap → cap ≤ 255 →
        (i2chalWrite writeFullOracle addr L cap).ok = true
        ∧ (i2chalWrite writeFullOracle addr L cap).attempted.length
            = ceilDiv L (cap - 2)
        ∧ ((i2chalWrite writeFullOracle addr L cap).txns.map (fun t => t - 2)).sum
            = L
        ∧ reportedCount true (i2chalWrite writeFullOracle addr L cap).cbDone
            = some L
        ∧ reportedCount false (i2chalWrite writeFullOracle addr L cap).cbDone
            = none) := by
  constructor
  · intro addr L hL
    rw [i2chalRead_full addr L hL]
    refine ⟨rfl, ?_, ?_, rfl, rfl⟩
    · exact chunkSizes_length 32 L (by omega)
    · exact chunkSizes_sum 32 L (by omega)
  · intro addr L cap hL h3 h255
    rw [i2chalWrite_full addr L cap hL h3 h255]
    refine ⟨rfl, ?_, ?_, rfl, rfl⟩
    · rw [List.length_map]
      exact chunkSizes_length (cap - 2) L (by omega)
    · rw [map_sub_two_map_add_two]
      exact chunkSizes_sum (cap - 2) L (by omega)

/-- Claim C1, witness: a 100-byte full-success read takes
`ceil(100/32) = 4` transactions, and a 100-byte full-success write with
`cbDevRxMax = 6` transfers exactly 100 payload bytes. -/
theorem claim_C1_amended_witness :
    (i2chalRead readFullOracle 0 100).issued = 4
    ∧ ((i2chalWrite writeFullOracle 0 100 6).txns.map (fun t => t - 2)).sum
        = 100 := by
  constructor
  · have h := claim_C1_amended.1 0 100 (by omega)
    rw [h.2.1]
    decide
  · exact (claim_C1_amended.2 0 100 6 (by omega) (by omega) (by omega)).2.2.1

/-- Claim C1, counterexample: a SYZYGY write of 255 bytes "succeeds" after a
single degenerate 1-byte transaction (the BYTE computation
`cbTrans = 2 + 255` wraps to 1), so the number of transactions is not
`ceil(255/32)` and the payload transferred is 0, not 255. -/
theorem claim_C1_counterexample :
    ¬ ((syzygyI2cWrite writeFullOracle 0 255).ok = true →
        (syzygyI2cWrite writeFullOracle 0 255).attempted.length = ceilDiv 255 32
        ∧ ((syzygyI2cWrite writeFullOracle 0 255).txns.map (fun t => t - 2)).sum
            = 255) := by
  decide

/-- Claim C2, amended.  Every Platform-MCU write transaction is staged with
at most `cbPmcuRxMax = 6` bytes in total: 2 address bytes plus at most 4
usable payload bytes (the 6-byte device limit counts the 2 address bytes, so
the usable payload cap is 4, not 6), for every requested length `L ≤ 253`
and every bus behaviour. -/
theorem claim_C2_amended :
    ∀ oracle addr L, L ≤ 253 →
      ∀ t ∈ (pmcuI2cWrite oracle addr L).attempted,
        3 ≤ t ∧ t ≤ 6 ∧ t - 2 ≤ 4 := by
  intro oracle addr L hL t htm
  have hle := i2chalWriteLoop_attempted_le oracle L 6 (by omega) (L+1) 0 0 addr t htm
  have hge := i2chalWriteLoop_attempted_ge oracle L 6 (by omega) (by omega) (by omega)
    (L+1) 0 0 addr (by omega) (by omega) t htm
  omega

/-- Claim C2, witness: the first transaction of a 10-byte Platform-MCU write
is staged with 6 bytes: 2 address bytes and 4 payload bytes. -/
theorem claim_C2_amended_witness :
    6 ∈ (pmcuI2cWrite writeFullOracle 0 10).attempted
    ∧ (3 ≤ 6 ∧ 6 ≤ 6 ∧ 6 - 2 ≤ 4) := by
  refine ⟨by decide, ?_⟩
  exact claim_C2_amended writeFullOracle 0 10 (by omega) 6 (by decide)

/-- Claim C2, counterexample: a Platform-MCU write of 255 bytes issues a
single 1-byte transaction, which cannot contain the 2-byte address prefix at
all — so it is not the case that every Platform-MCU write transaction
carries its payload in addition to a 2-byte address prefix. -/
theorem claim_C2_counterexample :
    ¬ (∀ t ∈ (pmcuI2cWrite writeFullOracle 0 255).attempted, 2 ≤ t) := by
  decide

/-- Claim C3.  If the `k`-th primitive transaction of a fragmented read or
write fails, the engine returns `fFalse` without retrying (it attempted
exactly `k` transactions, the first `k-1` successful) and stores a byte
count equal to the sum of the bytes transferred by the first `k-1`
transactions.  For reads the oracle must be well formed (a data phase never
returns more bytes than requested); for writes the device cap must be a
sensible `3 .. 255`. -/
theorem claim_C3 :
    (∀ oracle addr L, ReadOracleWF oracle → L < 256 →
        (i2chalRead oracle addr L).ok = false →
        (i2chalRead oracle addr L).cbDone = (i2chalRead oracle addr L).txns.sum
        ∧ (i2chalRead oracle addr L).issued
            = (i2chalRead oracle addr L).txns.length + 1
        ∧ reportedCount true (i2chalRead oracle addr L).cbDone
            = some ((i2chalRead oracle addr L).txns.sum))
    ∧ (∀ oracle addr L cap, 3 ≤ cap → cap ≤ 255 → L < 256 →
        (i2chalWrite oracle addr L cap).ok = false →
        (i2chalWrite oracle addr L cap).cbDone
            = ((i2chalWrite oracle addr L cap).txns.map (fun t => t - 2)).sum
        ∧ (i2chalWrite oracle addr L cap).attempted.length
            = (i2chalWrite oracle addr L cap).txns.length + 1) := by
  constructor
  · intro oracle addr L hwf hL hok
    obtain ⟨h1, _, h3⟩ := i2chalReadLoop_run oracle L hwf hL (L+1) 0 0 addr
      (i2chalRead oracle addr L) (by omega) (by omega) rfl
    refine ⟨by rw [h1]; simp, h3 hok, ?_⟩
    rw [reportedCount, if_pos rfl, h1]
    simp
  · intro oracle addr L cap h3 h255 hL hok
    obtain ⟨hf, _⟩ := i2chalWriteLoop_run oracle L cap h3 h255 hL (L+1) 0 0 addr
      (i2chalWrite oracle addr L cap) (by omega) (by omega) (by omega) rfl
    obtain ⟨f1, f2⟩ := hf hok
    exact ⟨by rw [f1]; simp, f2⟩

/-- Claim C3, witness: a 10-byte read whose first address phase fails
reports 0 bytes after exactly 1 attempted transaction, and likewise a
10-byte write whose first transaction fails. -/
theorem claim_C3_witness :
    (i2chalRead readAbortOracle 0 10).cbDone = 0
    ∧ (i2chalRead readAbortOracle 0 10).issued = 1
    ∧ (i2chalWrite writeAbortOracle 0 10 6).cbDone = 0
    ∧ (i2chalWrite writeAbortOracle 0 10 6).attempted.length = 1 := by
  have hwf : ReadOracleWF readAbortOracle := by
    intro i t cb h
    simp [readAbortOracle] at h
  have h1 := claim_C3.1 readAbortOracle 0 10 hwf (by omega) (by decide)
  have h2 := claim_C3.2 writeAbortOracle 0 10 6 (by omega) (by omega) (by omega)
    (by decide)
  refine ⟨?_, ?_, ?_, ?_⟩
  · rw [h1.1]
    decide
  · rw [h1.2.1]
    decide
  · rw [h2.1]
    decide
  · rw [h2.2]
    decide

/-- Claim C8, amended.  `SyzygyI2cRead`/`SyzygyI2cWrite` silently truncate
their 16-bit length to the engine's 8-bit length parameter: a full-success
read behaves exactly as a read of `L % 256` bytes (so the full requested
length is transferred iff `L ≤ 255`), and a full-success write transfers and
reports `L % 256` bytes provided `L % 256 ≤ 253` (for `L % 256 ∈ {254, 255}`
the write-path BYTE overflow of claim C1 reports `L % 256` without
transferring the data). -/
theorem claim_C8_amended :
    (∀ addr L, L < 65536 →
        syzygyI2cRead readFullOracle addr L
          = ⟨true, L % 256, chunkSizes 32 (L % 256), (chunkSizes 32 (L % 256)).length⟩
        ∧ (syzygyI2cRead readFullOracle addr L).txns.sum = L % 256
        ∧ ((syzygyI2cRead readFullOracle addr L).txns.sum = L ↔ L ≤ 255))
    ∧ (∀ addr L, L < 65536 → L % 256 ≤ 253 →
        (syzygyI2cWrite writeFullOracle addr L).ok = true
        ∧ ((syzygyI2cWrite writeFullOracle addr L).txns.map (fun t => t - 2)).sum
            = L % 256
        ∧ (syzygyI2cWrite writeFullOracle addr L).cbDone = L % 256) := by
  constructor
  · intro addr L hL
    have h : syzygyI2cRead readFullOracle addr L
        = ⟨true, L % 256, chunkSizes 32 (L % 256), (chunkSizes 32 (L % 256)).length⟩ := by
      rw [syzygyI2cRead, i2chalRead_full addr (L % 256) (by omega)]
    refine ⟨h, ?_, ?_⟩
    · rw [h]
      exact chunkSizes_sum 32 (L % 256) (by omega)
    · rw [h]
      have hs := chunkSizes_sum 32 (L % 256) (show 1 ≤ 32 by omega)
      constructor
      · intro he
        rw [hs] at he
        omega
      · intro he
        rw [hs]
        omega
  · intro addr L hL hmod
    have h : syzygyI2cWrite writeFullOracle addr L
        = ⟨true, L % 256, (chunkSizes 32 (L % 256)).map (fun c => 2 + c),
            (chunkSizes 32 (L % 256)).map (fun c => 2 + c)⟩ := by
      rw [syzygyI2cWrite, i2chalWrite_full addr (L % 256) 34 hmod (by omega) (by omega)]
    rw [h]
    refine ⟨rfl, ?_, rfl⟩
    rw [map_sub_two_map_add_two]
    exact chunkSizes_sum 32 (L % 256) (by omega)

/-- Claim C8, witness: a SYZYGY read or write of 300 bytes transfers and
reports `300 % 256 = 44` bytes. -/
theorem claim_C8_amended_witness :
    (syzygyI2cRead readFullOracle 0 300).txns.sum = 44
    ∧ (syzygyI2cWrite writeFullOracle 0 300).cbDone = 44 := by
  have h1 := claim_C8_amended.1 0 300 (by omega)
  have h2 := claim_C8_amended.2 0 300 (by omega) (by omega)
  constructor
  · rw [h1.2.1]
  · rw [h2.2.2]

/-- Claim C8, counterexample: a SYZYGY write of 510 bytes (truncated to 254)
reports success with 254 bytes but transfers 0 payload bytes, so the engine
does not transfer `length mod 256` bytes for every length `≥ 256`. -/
theorem claim_C8_counterexample :
    ¬ (((syzygyI2cWrite writeFullOracle 0 510).txns.map (fun t => t - 2)).sum
        = 510 % 256) := by
  decide

/-- Claim C9.  Staging is in bounds for every write when `cbDevRxMax ≤ 32`:
every staged index is below 32.  `SyzygyI2cWrite` however passes
`cbDevRxMax = 34`, and a 32-byte SYZYGY write stages a 34-byte transaction
whose staging loop writes `rgbSnd[32]` and `rgbSnd[33]`, past the end of the
32-byte buffer. -/
theorem claim_C9 :
    (∀ oracle addr L cap, cap ≤ 32 →
        ∀ t ∈ (i2chalWrite oracle addr L cap).attempted,
          ∀ idx ∈ stagedIndices t, idx < 32)
    ∧ (34 ∈ (syzygyI2cWrite writeFullOracle 0 32).attempted
        ∧ 32 ∈ stagedIndices 34 ∧ 33 ∈ stagedIndices 34 ∧ ¬ (32 < 32) ∧ ¬ (33 < 32)) := by
  constructor
  · intro oracle addr L cap hcap t htm idx hidx
    have hle : t ≤ cap := i2chalWriteLoop_attempted_le oracle L cap (by omega)
      (L+1) 0 0 addr t htm
    rw [stagedIndices] at hidx
    rcases List.mem_append.mp hidx with hi | hi
    · simp at hi
      omega
    · obtain ⟨j, hj, rfl⟩ := List.mem_range'.mp hi
      omega
  · refine ⟨by decide, by decide, by decide, by decide, by decide⟩

/-- Claim C9, witness: with the Platform-MCU cap 6 (`≤ 32`), staged index 5
of a 6-byte transaction of a 10-byte write is in bounds. -/
theorem claim_C9_witness :
    6 ∈ (i2chalWrite writeFullOracle 0 10 6).attempted
    ∧ 5 ∈ stagedIndices 6
    ∧ 5 < 32 := by
  refine ⟨by decide, by decide, ?_⟩
  exact claim_C9.1 writeFullOracle 0 10 6 (by omega) 6 (by decide) 5 (by decide)

/-! ### SYZYGY CRC-16 (src syzygy.c, SyzygyComputeCRC)

The C loop body, for a 16-bit `crc` and one buffer byte `b`, is
`x = (crc >> 8) ^ b; x ^= x >> 4;
 crc = (crc << 8) ^ (x << 12) ^ (x << 5) ^ x; crc &= 0xFFFF;`.
`crcMix` is the combined effect of the two assignments to `x`. -/

def crcMix (x : Nat) : Nat := x ^^^ (x >>> 4)

def syzygyCRCStep (crc b : Nat) : Nat :=
  ((((crc <<< 8) ^^^ (crcMix ((crc >>> 8) ^^^ b) <<< 12))
      ^^^ (crcMix ((crc >>> 8) ^^^ b) <<< 5))
    ^^^ crcMix ((crc >>> 8) ^^^ b)) &&& 0xFFFF

/-- `SyzygyComputeCRC pbBuf cbBuf`: fold the step over the buffer starting
from 0xFFFF; the result is returned with no final XOR. -/
def syzygyComputeCRC (rgb : List Nat) : Nat := rgb.foldl syzygyCRCStep 0xFFFF

/-- Modelled from the spec words: one shift step of the bitwise
polynomial-division definition of CRC-16-CCITT — shift left one bit and, if
a bit fell off the top (bit 15 was set), subtract (XOR) the polynomial
0x1021. -/
def crcDivStep (c : Nat) : Nat :=
  if c &&& 0x8000 = 0 then (c <<< 1) &&& 0xFFFF
  else ((c <<< 1) ^^^ 0x1021) &&& 0xFFFF

/-- Modelled from the spec words: the classic byte-at-a-time CRC-16 step —
XOR the byte into the top of the register, then run 8 polynomial-division
shift steps. -/
def crcSpecByteStep (crc b : Nat) : Nat := crcDivStep^[8] (crc ^^^ (b <<< 8))

/-- The XOR-of-shifts tail of the code's step. -/
def crcRM (t : Nat) : Nat := (crcMix t <<< 12) ^^^ (crcMix t <<< 5) ^^^ crcMix t

theorem syzygyCRCStep_eq_RM (crc b : Nat) :
    syzygyCRCStep crc b
      = ((crc <<< 8) ^^^ crcRM ((crc >>> 8) ^^^ b)) &&& 0xFFFF := by
  rw [syzygyCRCStep, crcRM, Nat.xor_assoc, Nat.xor_assoc, Nat.xor_assoc]

/-! Bitwise toolkit. -/

theorem xor_shiftLeft_distrib (a b n : Nat) :
    (a ^^^ b) <<< n = (a <<< n) ^^^ (b <<< n) := by
  apply Nat.eq_of_testBit_eq
  intro i
  simp only [Nat.testBit_shiftLeft, Nat.testBit_xor]
  by_cases h : n ≤ i <;> simp [h]

theorem xor_shiftRight_distrib (a b n : Nat) :
    (a ^^^ b) >>> n = (a >>> n) ^^^ (b >>> n) := by
  apply Nat.eq_of_testBit_eq
  intro i
  simp [Nat.testBit_shiftRight, Nat.testBit_xor]

theorem and_mask16 (x : Nat) : x &&& 0xFFFF = x % 65536 := by
  have h := Nat.and_pow_two_sub_one_eq_mod x 16
  norm_num at h
  exact h

theorem and_mask8 (x : Nat) : x &&& 255 = x % 256 := by
  have h := Nat.and_pow_two_sub_one_eq_mod x 8
  norm_num at h
  exact h

theorem hiLo_decomp (y : Nat) : ((y >>> 8) <<< 8) ^^^ (y &&& 255) = y := by
  apply Nat.eq_of_testBit_eq
  intro i
  have h255 : (255 : Nat) = 2^8 - 1 := by norm_num
  simp only [Nat.testBit_xor, Nat.testBit_shiftLeft, Nat.testBit_shiftRight,
    Nat.testBit_and, h255, Nat.testBit_two_pow_sub_one]
  by_cases h8 : 8 ≤ i
  · have hd : ¬ (i < 8) := by omega
    simp [h8, hd, Nat.add_sub_cancel' h8]
  · have hd : i < 8 := by omega
    simp [h8, hd]

theorem shiftLeft8_mask (y : Nat) : (y <<< 8) &&& 0xFFFF = (y &&& 255) <<< 8 := by
  rw [and_mask16, Nat.shiftLeft_eq, Nat.shiftLeft_eq, and_mask8]
  show y * 2^8 % 65536 = y % 256 * 2^8
  have h : (65536 : Nat) = 256 * 2^8 := by norm_num
  rw [h, Nat.mul_mod_mul_right]

theorem shiftLeft16_mask (a : Nat) : (a <<< 16) &&& 0xFFFF = 0 := by
  rw [and_mask16, Nat.shiftLeft_eq]
  have h : (65536 : Nat) = 2^16 := by norm_num
  rw [h, Nat.mul_mod_left]

theorem small_and_32768 (v : Nat) (h : v < 32768) : v &&& 32768 = 0 := by
  apply Nat.eq_of_testBit_eq
  intro i
  have h2 : (32768 : Nat) = 2^15 := by norm_num
  simp only [Nat.testBit_and, Nat.zero_testBit, h2, Nat.testBit_two_pow]
  by_cases hi : (15 : Nat) = i
  · subst hi
    have : Nat.testBit v 15 = false := Nat.testBit_lt_two_pow (by omega)
    simp [this]
  · simp [hi]

/-- One polynomial-division step distributes over XOR with a low addend:
XORing `v` (with bit 15 clear and `2v < 2^16`) into the register before a
shift step is the same as XORing `v <<< 1` in afterwards. -/
theorem crcDivStep_xor (u v : Nat) (hv : v < 32768) :
    crcDivStep (u ^^^ v) = crcDivStep u ^^^ (v <<< 1) := by
  have hcond : (u ^^^ v) &&& 0x8000 = u &&& 0x8000 := by
    show (u ^^^ v) &&& 32768 = u &&& 32768
    rw [Nat.and_xor_distrib_right, small_and_32768 v hv, Nat.xor_zero]
  have hv1 : (v <<< 1) &&& 0xFFFF = v <<< 1 := by
    rw [and_mask16]
    apply Nat.mod_eq_of_lt
    rw [Nat.shiftLeft_eq]
    omega
  rw [crcDivStep, crcDivStep, hcond]
  by_cases h0 : u &&& 0x8000 = 0
  · rw [if_pos h0, if_pos h0, xor_shiftLeft_distrib, Nat.and_xor_distrib_right, hv1]
  · rw [if_neg h0, if_neg h0, xor_shiftLeft_distrib]
    have hre : (u <<< 1) ^^^ (v <<< 1) ^^^ 0x1021
        = ((u <<< 1) ^^^ 0x1021) ^^^ (v <<< 1) := by
      rw [Nat.xor_assoc, Nat.xor_assoc, Nat.xor_comm (v <<< 1) 0x1021]
    rw [hre, Nat.and_xor_distrib_right, hv1]

theorem crcDivStep_iterate_xor :
    ∀ (k : Nat), ∀ u v, v < 2^(16-k) →
      crcDivStep^[k] (u ^^^ v) = crcDivStep^[k] u ^^^ (v <<< k) := by
  intro k
  induction k with
  | zero =>
    intro u v hv
    simp
  | succ k ih =>
    intro u v hv
    have hstep : v < 32768 := by
      have h15 : (16 - (k+1)) ≤ 15 := by omega
      have hle : (2:Nat)^(16-(k+1)) ≤ 2^15 := Nat.pow_le_pow_right (by omega) h15
      have h2 : (2:Nat)^15 = 32768 := by norm_num
      omega
    have hnext : v <<< 1 < 2^(16-k) := by
      rw [Nat.shiftLeft_eq, pow_one]
      by_cases hk : k ≤ 15
      · have he : 16 - k = (16 - (k+1)) + 1 := by omega
        rw [he, Nat.pow_succ]
        omega
      · have he : 16 - (k+1) = 0 := by omega
        rw [he, pow_zero] at hv
        have he2 : v = 0 := by omega
        rw [he2]
        exact pow_pos (by omega) _
    rw [Function.iterate_succ_apply, Function.iterate_succ_apply,
      crcDivStep_xor u v hstep, ih (crcDivStep u) (v <<< 1) hnext,
      ← Nat.shiftLeft_add, Nat.add_comm 1 k]

/-- The byte-at-a-time polynomial-division step splits into the action on
the top byte and a pass-through of the low byte. -/
theorem divStep8_decomp (y : Nat) :
    crcDivStep^[8] y = crcDivStep^[8] ((y >>> 8) <<< 8) ^^^ ((y &&& 255) <<< 8) := by
  have h := crcDivStep_iterate_xor 8 ((y >>> 8) <<< 8) (y &&& 255)
    (by
      have : y &&& 255 = y % 256 := and_mask8 y
      omega)
  rw [hiLo_decomp y] at h
  exact h

/-- Kernel check of the nibble-trick identity for all 256 top-byte values:
the code's `x ^= x >> 4; (x << 12) ^ (x << 5) ^ x` tail equals 8
polynomial-division steps applied to the byte in the top position. -/
theorem crcRM_eq_divStep8 :
    ∀ t, t < 256 → crcRM t &&& 0xFFFF = crcDivStep^[8] (t <<< 8) := by decide

theorem gStep_eq (y : Nat) (hy : y < 65536) :
    ((y <<< 8) ^^^ crcRM (y >>> 8)) &&& 0xFFFF = crcDivStep^[8] y := by
  rw [Nat.and_xor_distrib_right, shiftLeft8_mask,
    crcRM_eq_divStep8 (y >>> 8) (by
      rw [Nat.shiftRight_eq_div_pow]
      omega),
    divStep8_decomp y, Nat.xor_comm]

/-- The code's step equals the spec's byte-at-a-time polynomial-division
step on the 16-bit register domain. -/
theorem syzygyCRCStep_eq_spec (crc b : Nat) (hcrc : crc < 65536) (hb : b < 256) :
    syzygyCRCStep crc b = crcSpecByteStep crc b := by
  have he16 : (65536 : Nat) = 2^16 := by norm_num
  have hb8 : b <<< 8 < 65536 := by
    rw [Nat.shiftLeft_eq]
    norm_num
    omega
  have hy : crc ^^^ (b <<< 8) < 65536 := by
    rw [he16]
    rw [he16] at hcrc hb8
    exact Nat.xor_lt_two_pow hcrc hb8
  have h1 : (crc ^^^ (b <<< 8)) >>> 8 = (crc >>> 8) ^^^ b := by
    rw [xor_shiftRight_distrib, Nat.shiftLeft_shiftRight]
  have h2 : ((crc ^^^ (b <<< 8)) <<< 8) &&& 0xFFFF = (crc <<< 8) &&& 0xFFFF := by
    rw [xor_shiftLeft_distrib, ← Nat.shiftLeft_add]
    norm_num
    rw [Nat.and_xor_distrib_right, shiftLeft16_mask, Nat.xor_zero]
  rw [syzygyCRCStep_eq_RM, crcSpecByteStep, ← gStep_eq (crc ^^^ (b <<< 8)) hy, h1,
    Nat.and_xor_distrib_right, Nat.and_xor_distrib_right, h2]

/-- Every intermediate CRC register value is 16 bits. -/
theorem syzygyCRC_foldl_lt (rgb : List Nat) :
    ∀ acc, acc < 65536 → List.foldl syzygyCRCStep acc rgb < 65536 := by
  induction rgb with
  | nil =>
    intro acc h
    exact h
  | cons b rgb ih =>
    intro acc h
    rw [List.foldl_cons]
    apply ih
    have hle : syzygyCRCStep acc b ≤ 0xFFFF := Nat.and_le_right
    omega

theorem crcRM_zero : crcRM 0 = 0 := rfl

/-- Claim C4.  `SyzygyComputeCRC` is the CCITT CRC-16 with polynomial
0x1021, initial value 0xFFFF and no final XOR: its byte step equals the
bitwise polynomial-division definition on the 16-bit register domain, and
any buffer followed by the two big-endian bytes of its own CRC reduces to
zero. -/
theorem claim_C4 :
    (∀ crc b, crc < 65536 → b < 256 →
        syzygyCRCStep crc b = crcSpecByteStep crc b)
    ∧ (∀ rgb : List Nat,
        syzygyComputeCRC
            (rgb ++ [syzygyComputeCRC rgb >>> 8, syzygyComputeCRC rgb &&& 255])
          = 0) := by
  constructor
  · exact fun crc b h1 h2 => syzygyCRCStep_eq_spec crc b h1 h2
  · intro rgb
    set c := syzygyComputeCRC rgb with hcdef
    have hstep1 : syzygyCRCStep c (c >>> 8) = (c &&& 255) <<< 8 := by
      rw [syzygyCRCStep_eq_RM, Nat.xor_self, crcRM_zero, Nat.xor_zero, shiftLeft8_mask]
    have hstep2 : syzygyCRCStep ((c &&& 255) <<< 8) (c &&& 255) = 0 := by
      rw [syzygyCRCStep_eq_RM, Nat.shiftLeft_shiftRight, Nat.xor_self, crcRM_zero,
        Nat.xor_zero, ← Nat.shiftLeft_add]
      norm_num
      rw [shiftLeft16_mask]
    have hfold : List.foldl syzygyCRCStep 0xFFFF rgb = c := rfl
    show List.foldl syzygyCRCStep 0xFFFF (rgb ++ [c >>> 8, c &&& 255]) = 0
    rw [List.foldl_append, hfold]
    show syzygyCRCStep (syzygyCRCStep c (c >>> 8)) (c &&& 255) = 0
    rw [hstep1, hstep2]

/-- Claim C4, witness: the step equality at register 0xFFFF and byte 0x41,
and the reduce-to-zero property on the one-byte buffer `[0x41]`. -/
theorem claim_C4_witness :
    syzygyCRCStep 0xFFFF 0x41 = crcSpecByteStep 0xFFFF 0x41
    ∧ syzygyComputeCRC
        ([0x41] ++ [syzygyComputeCRC [0x41] >>> 8, syzygyComputeCRC [0x41] &&& 255])
      = 0 := by
  exact ⟨claim_C4.1 0xFFFF 0x41 (by decide) (by decide), claim_C4.2 [0x41]⟩

/-! ### Zmod identification (src Zmod.c, ZmodADC.h, ZmodDAC.h, ZmodDigitizer.h)

`DWORD Pdid` is a 32-bit product ID; output parameters are modelled as the
second component of the returned pair. -/

def prodZmodADC : Nat := 0x801

def prodZmodDAC : Nat := 0x802

def prodZmodDigitizer : Nat := 0x801

def FZmodIsADC (pdid : Nat) : Bool := ((pdid >>> 20) &&& 0xfff) == prodZmodADC

/-- Modelled from the spec: the body of `FZmodIsDAC` is not among the
provided sources (only its callers and the `prodZmodDAC = 0x802` constant
from ZmodDAC.h are); per the spec's identification rule — family is bits
31:20 compared against the family's product code — it is
`((Pdid >> 20) & 0xfff) == prodZmodDAC`. -/
def FZmodIsDAC (pdid : Nat) : Bool := ((pdid >>> 20) &&& 0xfff) == prodZmodDAC

def FZmodIsDigitizer (pdid : Nat) : Bool :=
  ((pdid >>> 20) &&& 0xfff) == prodZmodDigitizer

inductive ZMOD_FAMILY where
  | adc
  | dac
  | digitizer
  | unsupported
deriving DecidableEq

/-- `FGetZmodFamily` (src Zmod.c): tests ADC, then DAC, then Digitizer, and
otherwise reports the unsupported family; it returns fTrue in every case. -/
def FGetZmodFamily (pdid : Nat) : Bool × ZMOD_FAMILY :=
  if FZmodIsADC pdid then (true, .adc)
  else if FZmodIsDAC pdid then (true, .dac)
  else if FZmodIsDigitizer pdid then (true, .digitizer)
  else (true, .unsupported)

inductive ZMOD_ADC_VARIANT where
  | v1410_105
  | v1010_40
  | v1210_40
  | v1410_40
  | v1010_125
  | v1210_125
  | v1410_125
  | unsupported
deriving DecidableEq

/-- `FGetZmodADCVariant` (src ZmodADC.c): switch on bits 19:8 of the PDID. -/
def FGetZmodADCVariant (pdid : Nat) : Bool × ZMOD_ADC_VARIANT :=
  match (pdid >>> 8) &&& 0xfff with
  | 0x002 => (true, .v1410_105)
  | 0x012 => (true, .v1010_40)
  | 0x022 => (true, .v1210_40)
  | 0x032 => (true, .v1410_40)
  | 0x042 => (true, .v1010_125)
  | 0x052 => (true, .v1210_125)
  | 0x062 => (true, .v1410_125)
  | _ => (false, .unsupported)

/-- `FGetZmodADCResolution` (src ZmodADC.c): on the unsupported variant the
C function returns fFalse without writing `*pResolution`, modelled by
`none`. -/
def FGetZmodADCResolution : ZMOD_ADC_VARIANT → Bool × Option Nat
  | .v1410_105 => (true, some 14)
  | .v1410_40 => (true, some 14)
  | .v1410_125 => (true, some 14)
  | .v1210_40 => (true, some 12)
  | .v1210_125 => (true, some 12)
  | .v1010_40 => (true, some 10)
  | .v1010_125 => (true, some 10)
  | .unsupported => (false, none)

/-- Claim C7.  PDID 0x80100200 decodes to the ADC family (bits 31:20 are
0x801), variant 1410_105 (bits 19:8 are 0x002), resolution 14. -/
theorem claim_C7 :
    FZmodIsADC 0x80100200 = true
    ∧ (0x80100200 >>> 20) &&& 0xfff = prodZmodADC
    ∧ FGetZmodADCVariant 0x80100200 = (true, ZMOD_ADC_VARIANT.v1410_105)
    ∧ (0x80100200 >>> 8) &&& 0xfff = 0x002
    ∧ FGetZmodADCResolution ZMOD_ADC_VARIANT.v1410_105 = (true, some 14) := by
  decide

theorem FZmodIsADC_eq_isDigitizer (pdid : Nat) :
    FZmodIsADC pdid = FZmodIsDigitizer pdid := rfl

/-- Claim C10.  The ADC and Digitizer product codes are both 0x801, so
`FZmodIsADC` and `FZmodIsDigitizer` agree on every PDID; `FGetZmodFamily`
tests ADC first and therefore never reports the Digitizer family, and it
returns fTrue for every input, reporting the unsupported family through the
output parameter when no family matches. -/
theorem claim_C10 :
    prodZmodADC = 0x801
    ∧ prodZmodDigitizer = 0x801
    ∧ (∀ pdid, FZmodIsADC pdid = FZmodIsDigitizer pdid)
    ∧ (∀ pdid, (FGetZmodFamily pdid).2 ≠ ZMOD_FAMILY.digitizer)
    ∧ (∀ pdid, (FGetZmodFamily pdid).1 = true)
    ∧ (∀ pdid, FZmodIsADC pdid = false → FZmodIsDAC pdid = false →
        (FGetZmodFamily pdid).2 = ZMOD_FAMILY.unsupported) := by
  refine ⟨rfl, rfl, fun _ => rfl, ?_, ?_, ?_⟩
  · intro pdid
    rw [FGetZmodFamily]
    cases h : FZmodIsADC pdid with
    | true => simp
    | false =>
      have h3 : FZmodIsDigitizer pdid = false := by
        rw [← FZmodIsADC_eq_isDigitizer]
        exact h
      cases h2 : FZmodIsDAC pdid with
      | true => simp [h2]
      | false => simp [h2, h3]
  · intro pdid
    rw [FGetZmodFamily]
    cases h : FZmodIsADC pdid with
    | true => simp
    | false =>
      cases h2 : FZmodIsDAC pdid with
      | true => simp [h2]
      | false =>
        cases h3 : FZmodIsDigitizer pdid with
        | true => simp [h2, h3]
        | false => simp [h2, h3]
  · intro pdid h h2
    have h3 : FZmodIsDigitizer pdid = false := by
      rw [← FZmodIsADC_eq_isDigitizer]
      exact h
    rw [FGetZmodFamily]
    simp [h, h2, h3]

/-- Claim C10, witness: PDID 0x80100200 (a Digitizer-coded PDID is
indistinguishable from an ADC one) is classified as ADC with fTrue, and PDID
0 is classified unsupported with fTrue. -/
theorem claim_C10_witness :
    FZmodIsADC 0x80100200 = FZmodIsDigitizer 0x80100200
    ∧ (FGetZmodFamily 0x80100200).2 ≠ ZMOD_FAMILY.digitizer
    ∧ (FGetZmodFamily 0).1 = true
    ∧ (FGetZmodFamily 0).2 = ZMOD_FAMILY.unsupported := by
  refine ⟨claim_C10.2.2.1 0x80100200, claim_C10.2.2.2.1 0x80100200,
    claim_C10.2.2.2.2.1 0, claim_C10.2.2.2.2.2 0 (by decide) (by decide)⟩

/-! ### Digitizer frequency steps (src ZmodDigitizer.c)

The C function returns `float` constants; the exact decimal values are
modelled in ℚ (e.g. `122.88f` as `12288/100`). -/

def FZmodDigitizerGetFrequencyStepMHz (hz : Nat) : ℚ :=
  match hz with
  | 0 => 12288/100
  | 50 => 50
  | 80 => 80
  | 100 => 100
  | 110 => 110
  | 120 => 120
  | 125 => 125
  | _ => 0

/-- Claim C6.  The frequency-step byte values 0, 50, 80, 100, 110, 120, 125
map to 122.88, 50, 80, 100, 110, 120, 125 MHz; every other byte maps to 0
without error; in particular 0 ↦ 122.88, 125 ↦ 125, 99 ↦ 0. -/
theorem claim_C6 :
    (FZmodDigitizerGetFrequencyStepMHz 0 = 12288/100
      ∧ FZmodDigitizerGetFrequencyStepMHz 50 = 50
      ∧ FZmodDigitizerGetFrequencyStepMHz 80 = 80
      ∧ FZmodDigitizerGetFrequencyStepMHz 100 = 100
      ∧ FZmodDigitizerGetFrequencyStepMHz 110 = 110
      ∧ FZmodDigitizerGetFrequencyStepMHz 120 = 120
      ∧ FZmodDigitizerGetFrequencyStepMHz 125 = 125
      ∧ FZmodDigitizerGetFrequencyStepMHz 99 = 0)
    ∧ (∀ hz, hz ≠ 0 → hz ≠ 50 → hz ≠ 80 → hz ≠ 100 → hz ≠ 110 → hz ≠ 120 →
        hz ≠ 125 → FZmodDigitizerGetFrequencyStepMHz hz = 0) := by
  constructor
  · exact ⟨rfl, rfl, rfl, rfl, rfl, rfl, rfl, rfl⟩
  · intro hz h0 h50 h80 h100 h110 h120 h125
    unfold FZmodDigitizerGetFrequencyStepMHz
    split <;> simp_all

/-- Claim C6, witness: byte 77 is not a recognized step and maps to 0. -/
theorem claim_C6_witness : FZmodDigitizerGetFrequencyStepMHz 77 = 0 :=
  claim_C6.2 77 (by decide) (by decide) (by decide) (by decide) (by decide)
    (by decide) (by decide)

/-! ### DAC additive calibration coefficient (src ZmodDAC.c)

C `float`/`double` arithmetic is modelled exactly over ℚ; the
`(int32_t)` cast truncates toward zero (`Int.div` on numerator and
denominator), and `ival &= (1<<18)-1` keeps the low 18 two's-complement
bits, i.e. the value mod 2^18 (`Int.emod`). -/

def DAC1411_IDEAL_RANGE_DAC_HIGH : ℚ := 5

def DAC1411_IDEAL_RANGE_DAC_LOW : ℚ := 125/100

def DAC1411_REAL_RANGE_DAC_HIGH : ℚ := 532/100

def DAC1411_REAL_RANGE_DAC_LOW : ℚ := 133/100

/-- Truncation toward zero of a rational, as C's `(int32_t)` cast. -/
def ratTrunc (q : ℚ) : ℤ := Int.tdiv q.num (q.den : ℤ)

/-- `ComputeAddCoefDAC1411 ca cg fHighGain` (src ZmodDAC.c):
`fval = -ca * (float)(uint32_t)(1<<17) / ((fHighGain ? REAL_HIGH : REAL_LOW) * (1 + cg));
 ival = (int32_t)(fval + 0.5); ival &= (1<<18)-1;`. -/
def ComputeAddCoefDAC1411 (ca cg : ℚ) (fHighGain : Bool) : ℤ :=
  Int.emod
    (ratTrunc (-ca * 131072 /
      ((if fHighGain then DAC1411_REAL_RANGE_DAC_HIGH else DAC1411_REAL_RANGE_DAC_LOW)
        * (1 + cg)) + 1/2))
    262144

/-- Modelled from the spec words: `round(-storedOffset * 2^17 /
(real * (1 + storedGain)))` masked to 18 bits, where `real` is 5.32 for the
high gain setting and 1.33 for the low one, and `round` adds 0.5 and then
truncates toward zero via integer conversion. -/
def addCoefDAC1411Spec (ca cg : ℚ) (fHighGain : Bool) : ℤ :=
  Int.emod
    (ratTrunc ((-ca) * 2^17 /
      ((if fHighGain then (532/100 : ℚ) else (133/100 : ℚ)) * (1 + cg)) + 1/2))
    (2^18)

/-- Claim C5.  For every stored offset, stored gain and gain setting, the
code's additive DAC coefficient equals the spec's formula. -/
theorem claim_C5 :
    ∀ ca cg : ℚ, ∀ fHighGain : Bool,
      ComputeAddCoefDAC1411 ca cg fHighGain = addCoefDAC1411Spec ca cg fHighGain := by
  intro ca cg fHighGain
  rw [ComputeAddCoefDAC1411, addCoefDAC1411Spec, DAC1411_REAL_RANGE_DAC_HIGH,
    DAC1411_REAL_RANGE_DAC_LOW]
  norm_num

end Dpmutil
